import Mathlib

/-!
Verification of the epidemic core of `infectious_disease_simulation`:
the continuous-time hazard model (`simulation/disease.py`) and the
k-nearest-neighbour proximity graph builder (`create_graph.py`).

The hazard model is embedded over the reals: the float rate values
`0.0`, finite, and `float('inf')` are represented by the inductive
type `Hazard`, and the single uniform draw `self.__rng.random()` is
made an explicit parameter `u`.  The graph builder is embedded over
`ℕ`-indexed integer matrices as executable list functions; Python's
stable `list.sort(key=...)` is modelled by `List.insertionSort` on the
key order, which is a stable sort and therefore has the same
input/output contract.
-/

namespace DiseaseSim

/-- Hazard rate per real second: either a finite value or `+∞`
(the float `inf` produced by `Disease.__daily_to_lambda` for `p ≥ 1`). -/
inductive Hazard where
  | fin (r : ℝ)
  | inf
deriving Inhabited

open Classical in
/-- Embedding of `Disease.__daily_to_lambda` (disease.py lines 50-61):
`prob <= 0 → 0.0`; `prob >= 1 → float('inf')`;
otherwise `-log(1 - prob) / (24 * seconds_per_hour)`. -/
noncomputable def daily_to_lambda (seconds_per_hour prob : ℝ) : Hazard :=
  if prob ≤ 0 then Hazard.fin 0
  else if 1 ≤ prob then Hazard.inf
  else Hazard.fin (-Real.log (1 - prob) / (24 * seconds_per_hour))

open Classical in
/-- Embedding of `Disease.__happens` (disease.py lines 63-70), with the
uniform draw `self.__rng.random()` made an explicit parameter `u`:
`lambda_rate == 0.0 → False`; `isinf(lambda_rate) → delta_time > 0`;
otherwise `u < 1 - exp(-lambda_rate * delta_time)`. -/
def happens : Hazard → ℝ → ℝ → Prop
  | Hazard.fin r, delta_time, u =>
      if r = 0 then False else u < 1 - Real.exp (-r * delta_time)
  | Hazard.inf, delta_time, _ => 0 < delta_time

/-- State of a `Disease` object after `Disease.__init__` has run
(disease.py lines 25-48): the three precomputed hazards and the
incubation time already rescaled to real seconds. -/
structure Disease where
  lambda_infect : Hazard
  lambda_recover : Hazard
  lambda_die : Hazard
  incubation_time : ℝ
  seconds_per_hour : ℝ

/-- Embedding of `Disease.__init__` (disease.py lines 25-48). -/
noncomputable def Disease.init (infection_rate incubation_time recovery_rate
    mortality_rate seconds_per_hour : ℝ) : Disease :=
  { lambda_infect := daily_to_lambda seconds_per_hour infection_rate
    lambda_recover := daily_to_lambda seconds_per_hour recovery_rate
    lambda_die := daily_to_lambda seconds_per_hour mortality_rate
    incubation_time := incubation_time * 24 * seconds_per_hour
    seconds_per_hour := seconds_per_hour }

/-- Embedding of `Disease.infect` (disease.py lines 72-79). -/
def Disease.infect (d : Disease) (delta_time u : ℝ) : Prop :=
  happens d.lambda_infect delta_time u

/-- Embedding of `Disease.recover` (disease.py lines 81-88). -/
def Disease.recover (d : Disease) (delta_time u : ℝ) : Prop :=
  happens d.lambda_recover delta_time u

/-- Embedding of `Disease.die` (disease.py lines 90-97). -/
def Disease.die (d : Disease) (delta_time u : ℝ) : Prop :=
  happens d.lambda_die delta_time u

/-- Embedding of `Disease.get_incubation_time` (disease.py lines 99-106). -/
def Disease.get_incubation_time (d : Disease) : ℝ :=
  d.incubation_time

/-- C1: the stochastic-event primitive `Disease.__happens` satisfies the
spec's reference definition of `eventOccurs` for every rate and every
elapsed time `Δt ≥ 0` and uniform draw `u ∈ [0,1)`: rate `0` always gives
`false`; rate `+∞` gives `true` iff `Δt > 0`; a finite nonzero rate gives
`u < 1 - exp(-rate * Δt)`; and in particular `Δt = 0` with a finite rate
always gives `false`. -/
theorem C1_happens_reference (rate : Hazard) (dt u : ℝ)
    (hdt : 0 ≤ dt) (hu0 : 0 ≤ u) (hu1 : u < 1) :
    (rate = Hazard.fin 0 → ¬ happens rate dt u) ∧
    (rate = Hazard.inf → (happens rate dt u ↔ 0 < dt)) ∧
    (∀ r : ℝ, r ≠ 0 → rate = Hazard.fin r →
      (happens rate dt u ↔ u < 1 - Real.exp (-(r * dt)))) ∧
    (∀ r : ℝ, rate = Hazard.fin r → dt = 0 → ¬ happens rate dt u) := by
  refine ⟨?_, ?_, ?_, ?_⟩
  · rintro rfl
    simp [happens]
  · rintro rfl
    exact Iff.rfl
  · rintro r hr rfl
    simp only [happens, if_neg hr, neg_mul]
  · rintro r rfl rfl
    simp only [happens]
    split
    · exact id
    · simp only [mul_zero, neg_zero, neg_mul, Real.exp_zero, sub_self]
      intro h
      exact absurd hu0 (not_le.mpr h)

/-- C1 witness: the reference definition instantiated at the infinite rate,
`Δt = 1`, `u = 0`. -/
theorem C1_happens_reference_witness :
    (0:ℝ) ≤ 1 ∧ (0:ℝ) ≤ 0 ∧ (0:ℝ) < 1 ∧
    ((Hazard.inf = Hazard.fin 0 → ¬ happens Hazard.inf 1 0) ∧
     (Hazard.inf = Hazard.inf → (happens Hazard.inf 1 0 ↔ (0:ℝ) < 1)) ∧
     (∀ r : ℝ, r ≠ 0 → Hazard.inf = Hazard.fin r →
       (happens Hazard.inf 1 0 ↔ (0:ℝ) < 1 - Real.exp (-(r * 1)))) ∧
     (∀ r : ℝ, Hazard.inf = Hazard.fin r → (1:ℝ) = 0 →
       ¬ happens Hazard.inf 1 0)) :=
  ⟨by norm_num, le_refl 0, by norm_num,
    C1_happens_reference Hazard.inf 1 0 (by norm_num) (le_refl 0) (by norm_num)⟩

/-- C2: `Disease.__daily_to_lambda` returns rate `0` when `p ≤ 0`,
`+∞` when `p ≥ 1`, and `-ln(1-p) / (24 * seconds_per_hour)` otherwise,
for every daily probability `p` and every `seconds_per_hour > 0`. -/
theorem C2_daily_to_lambda_cases (seconds_per_hour p : ℝ)
    (hs : 0 < seconds_per_hour) :
    (p ≤ 0 → daily_to_lambda seconds_per_hour p = Hazard.fin 0) ∧
    (1 ≤ p → daily_to_lambda seconds_per_hour p = Hazard.inf) ∧
    (0 < p → p < 1 →
      daily_to_lambda seconds_per_hour p =
        Hazard.fin (-Real.log (1 - p) / (24 * seconds_per_hour))) := by
  refine ⟨fun h0 => ?_, fun h1 => ?_, fun h0 h1 => ?_⟩
  · simp [daily_to_lambda, if_pos h0]
  · have : ¬ p ≤ 0 := by linarith
    simp [daily_to_lambda, if_neg this, if_pos h1]
  · have hn0 : ¬ p ≤ 0 := not_le.mpr h0
    have hn1 : ¬ 1 ≤ p := not_le.mpr h1
    simp [daily_to_lambda, if_neg hn0, if_neg hn1]

/-- C2 witness: the conversion instantiated at `seconds_per_hour = 1`,
`p = 1/2`. -/
theorem C2_daily_to_lambda_cases_witness :
    (0:ℝ) < 1 ∧
    (((1:ℝ)/2 ≤ 0 → daily_to_lambda 1 (1/2) = Hazard.fin 0) ∧
     ((1:ℝ) ≤ 1/2 → daily_to_lambda 1 (1/2) = Hazard.inf) ∧
     ((0:ℝ) < 1/2 → (1:ℝ)/2 < 1 →
       daily_to_lambda 1 (1/2) =
         Hazard.fin (-Real.log (1 - 1/2) / (24 * 1)))) :=
  ⟨by norm_num, C2_daily_to_lambda_cases 1 (1/2) (by norm_num)⟩

/-- C7: for every `Disease` constructed from `incubation_time` (days) and
`seconds_per_hour`, `get_incubation_time` returns exactly
`incubation_time * 24 * seconds_per_hour`. -/
theorem C7_incubation_time (infection_rate incubation_time recovery_rate
    mortality_rate seconds_per_hour : ℝ) :
    (Disease.init infection_rate incubation_time recovery_rate
        mortality_rate seconds_per_hour).get_incubation_time =
      incubation_time * 24 * seconds_per_hour :=
  rfl

/-- Ordering on hazard rates: every finite rate is below `+∞`, and finite
rates compare as reals. -/
def Hazard.le : Hazard → Hazard → Prop
  | _, Hazard.inf => True
  | Hazard.inf, Hazard.fin _ => False
  | Hazard.fin a, Hazard.fin b => a ≤ b

/-- C8: for fixed `Δt > 0` and fixed draw `u ∈ [0,1)`, the outcome of
`Disease.__happens` is monotone in the rate (including the edge values
`0` and `+∞`): if the event occurs at the smaller rate it occurs at the
larger one with the same draw. -/
theorem C8_happens_monotone (r1 r2 : Hazard) (dt u : ℝ)
    (hdt : 0 < dt) (hu0 : 0 ≤ u) (hu1 : u < 1) (hle : Hazard.le r1 r2) :
    happens r1 dt u → happens r2 dt u := by
  cases r2 with
  | inf => intro _; exact hdt
  | fin b =>
    cases r1 with
    | inf => exact absurd hle not_false
    | fin a =>
      have hab : a ≤ b := hle
      intro h
      simp only [happens] at h ⊢
      by_cases ha : a = 0
      · rw [if_pos ha] at h
        exact h.elim
      · rw [if_neg ha] at h
        by_cases hb : b = 0
        · exfalso
          have halt : a < 0 := lt_of_le_of_ne (hb ▸ hab) ha
          have hx : (0:ℝ) ≤ -a * dt := by nlinarith
          have hexp : (1:ℝ) ≤ Real.exp (-a * dt) := Real.one_le_exp hx
          linarith
        · rw [if_neg hb]
          have hmul : -b * dt ≤ -a * dt :=
            mul_le_mul_of_nonneg_right (neg_le_neg hab) hdt.le
          have hexp : Real.exp (-b * dt) ≤ Real.exp (-a * dt) :=
            Real.exp_le_exp.mpr hmul
          linarith

/-- C8 witness: monotonicity instantiated at rates `1` and `+∞`,
`Δt = 1`, `u = 0`. -/
theorem C8_happens_monotone_witness :
    (0:ℝ) < 1 ∧ (0:ℝ) ≤ 0 ∧ (0:ℝ) < 1 ∧ Hazard.le (Hazard.fin 1) Hazard.inf ∧
    (happens (Hazard.fin 1) 1 0 → happens Hazard.inf 1 0) :=
  ⟨by norm_num, le_refl 0, by norm_num, trivial,
    C8_happens_monotone (Hazard.fin 1) Hazard.inf 1 0 (by norm_num)
      (le_refl 0) (by norm_num) trivial⟩

/-- Helper for C6: for every configured daily probability and every
negative elapsed time, `Disease.__happens` silently returns `False`
(no exception is raised and no rejection happens). -/
theorem not_happens_daily_of_neg (sph p dt u : ℝ)
    (hs : 0 < sph) (hu : 0 ≤ u) (hdt : dt < 0) :
    ¬ happens (daily_to_lambda sph p) dt u := by
  rcases le_or_lt p 0 with h0 | h0
  · simp [daily_to_lambda, if_pos h0, happens]
  · rcases le_or_lt 1 p with h1 | h1
    · have hn : ¬ p ≤ 0 := not_le.mpr h0
      simp only [daily_to_lambda, if_neg hn, if_pos h1, happens, not_lt]
      exact hdt.le
    · have hn0 : ¬ p ≤ 0 := not_le.mpr h0
      have hn1 : ¬ 1 ≤ p := not_le.mpr h1
      have hlog : Real.log (1 - p) < 0 := Real.log_neg (by linarith) (by linarith)
      have hc : 0 < -Real.log (1 - p) / (24 * sph) :=
        div_pos (by linarith) (by positivity)
      simp only [daily_to_lambda, if_neg hn0, if_neg hn1, happens,
        if_neg (ne_of_gt hc)]
      intro hlt
      have hx : 0 < -(-Real.log (1 - p) / (24 * sph)) * dt :=
        mul_pos_of_neg_of_neg (by linarith) hdt
      have hexp : 1 < Real.exp (-(-Real.log (1 - p) / (24 * sph)) * dt) :=
        Real.one_lt_exp_iff.mpr hx
      linarith

/-- C6: contrary to the spec's fail-fast requirement, a negative elapsed
time `Δt < 0` is not rejected: `infect`, `recover` and `die` all complete
normally and silently return `False` for every configuration with
`seconds_per_hour > 0` and every draw `u ≥ 0`.  This documents the code's
actual behaviour at the failing input of claim C6. -/
theorem C6_negative_dt_not_rejected (infection_rate incubation_time
    recovery_rate mortality_rate seconds_per_hour dt u : ℝ)
    (hs : 0 < seconds_per_hour) (hu : 0 ≤ u) (hdt : dt < 0) :
    ¬ (Disease.init infection_rate incubation_time recovery_rate
        mortality_rate seconds_per_hour).infect dt u ∧
    ¬ (Disease.init infection_rate incubation_time recovery_rate
        mortality_rate seconds_per_hour).recover dt u ∧
    ¬ (Disease.init infection_rate incubation_time recovery_rate
        mortality_rate seconds_per_hour).die dt u :=
  ⟨not_happens_daily_of_neg seconds_per_hour infection_rate dt u hs hu hdt,
   not_happens_daily_of_neg seconds_per_hour recovery_rate dt u hs hu hdt,
   not_happens_daily_of_neg seconds_per_hour mortality_rate dt u hs hu hdt⟩

/-- C6 witness: the silent-acceptance behaviour instantiated at daily
probability `1/2`, `seconds_per_hour = 1`, `Δt = -1`, `u = 0`. -/
theorem C6_negative_dt_not_rejected_witness :
    (0:ℝ) < 1 ∧ (0:ℝ) ≤ 0 ∧ (-1:ℝ) < 0 ∧
    (¬ (Disease.init (1/2) 1 (1/2) (1/2) 1).infect (-1) 0 ∧
     ¬ (Disease.init (1/2) 1 (1/2) (1/2) 1).recover (-1) 0 ∧
     ¬ (Disease.init (1/2) 1 (1/2) (1/2) 1).die (-1) 0) :=
  ⟨by norm_num, le_refl 0, by norm_num,
    C6_negative_dt_not_rejected (1/2) 1 (1/2) (1/2) 1 (-1) 0
      (by norm_num) (le_refl 0) (by norm_num)⟩

end DiseaseSim

namespace CreateGraph

/-- Building coordinate `(i, j)` on the map grid. -/
abbrev Pt := ℕ × ℕ

/-- Squared Euclidean distance exactly as computed in `make_graph`
(create_graph.py lines 59-61): `dx*dx + dy*dy` on Python integers. -/
def dist2 (p q : Pt) : ℤ :=
  ((p.1 : ℤ) - (q.1 : ℤ)) * ((p.1 : ℤ) - (q.1 : ℤ)) +
    ((p.2 : ℤ) - (q.2 : ℤ)) * ((p.2 : ℤ) - (q.2 : ℤ))

/-- Key order used by `distances.sort(key=lambda item: item[0])`
(create_graph.py line 65): compare `(distance², point)` pairs by the
stored squared distance only. -/
def keyLE (a b : ℤ × Pt) : Prop := a.1 ≤ b.1

instance : DecidableRel keyLE := fun a b => inferInstanceAs (Decidable (a.1 ≤ b.1))

instance : IsTotal (ℤ × Pt) keyLE := ⟨fun a b => le_total a.1 b.1⟩

instance : IsTrans (ℤ × Pt) keyLE := ⟨fun _ _ _ h1 h2 => le_trans h1 h2⟩

/-- Building-tile collection of `make_graph` (create_graph.py lines 44-48):
row-major scan of the `rows × columns` grid keeping the coordinates of
non-zero cells, with `rows = len(map)` and `columns = len(map[0])`. -/
def buildingPoints (m : List (List ℤ)) : List Pt :=
  (List.range m.length).flatMap (fun i =>
    (List.range (m.headD []).length).filterMap (fun j =>
      if (m.getD i []).getD j 0 ≠ 0 then some (i, j) else none))

/-- The neighbour-count limit of `make_graph` (create_graph.py lines 40-42):
computed from the `points` list while it is still empty,
`min(max(3, int(len(points) ** 0.5)), 6)`. -/
def kValue : ℕ :=
  min (max 3 (Nat.sqrt ([] : List Pt).length)) 6

/-- The `distances` list built by `make_graph` for one point
(create_graph.py lines 52-62): one `(distance², q)` pair for every other
point `q ≠ p`, in the enumeration order of `points`. -/
def distancesOf (points : List Pt) (p : Pt) : List (ℤ × Pt) :=
  (points.filter (fun q => decide (q ≠ p))).map (fun q => (dist2 p q, q))

/-- Neighbour-list computation of `make_graph` for one point
(create_graph.py lines 51-72): collect `(distance², q)` for every other
point `q`, stable-sort by distance, and keep the first
`min(k, len(distances))` coordinates.  Python's stable `list.sort` is
modelled by `List.insertionSort`, a stable sort with the same contract. -/
def neighboursOf (k : ℕ) (points : List Pt) (p : Pt) : List Pt :=
  (((distancesOf points p).insertionSort keyLE).take
      (min k (distancesOf points p).length)).map Prod.snd

/-- Embedding of `CreateGraph.make_graph` (create_graph.py lines 28-74):
the Python dict, whose keys are inserted in `points` order and are
pairwise distinct, is represented as the association list pairing each
building point with its neighbour list. -/
def makeGraph (m : List (List ℤ)) : List (Pt × List Pt) :=
  (buildingPoints m).map (fun p => (p, neighboursOf kValue (buildingPoints m) p))

/-- C3: the neighbour-count limit equals `clamp(max(3, round(sqrt(N))), 3, 6)`
for `N` the number of points known when `k` is computed; since the `points`
list is still empty at that moment, `N = 0` and the limit used by
`make_graph` is exactly `3` for every input map. -/
theorem C3_k_always_three :
    kValue = min (max 3 (Nat.sqrt ([] : List Pt).length)) 6 ∧
    kValue = 3 ∧
    ∀ m : List (List ℤ),
      makeGraph m =
        (buildingPoints m).map (fun p => (p, neighboursOf 3 (buildingPoints m) p)) :=
  ⟨rfl, rfl, fun _ => rfl⟩

/-- C9: the proximity graph is not guaranteed symmetric: there is an input
map with points `A` and `B` such that `A` is in `B`'s neighbour list but
`B` is not in `A`'s.  Here `A = (0,0)` sits in a cluster of four mutually
nearest buildings and `B = (0,5)` is remote: `B`'s three nearest include
`A`, while `A`'s three nearest are the other cluster members. -/
theorem C9_not_symmetric :
    ∃ (m : List (List ℤ)) (A B : Pt) (lA lB : List Pt),
      (A, lA) ∈ makeGraph m ∧ (B, lB) ∈ makeGraph m ∧ A ∈ lB ∧ B ∉ lA :=
  ⟨[[1,1,0,0,0,1],[1,1,0,0,0,0]], (0,0), (0,5),
   [(0,1),(1,0),(1,1)], [(0,1),(1,1),(0,0)],
   by decide, by decide, by decide, by decide⟩

/-- Characterisation of the collected building tiles: `(i, j)` is collected
iff it is in range of the scan and its map cell is non-zero. -/
theorem mem_buildingPoints (m : List (List ℤ)) (i j : ℕ) :
    (i, j) ∈ buildingPoints m ↔
      i < m.length ∧ j < (m.headD []).length ∧ (m.getD i []).getD j 0 ≠ 0 := by
  simp only [buildingPoints, List.mem_flatMap, List.mem_range, List.mem_filterMap]
  constructor
  · rintro ⟨i', hi', j', hj', hf⟩
    by_cases hcell : (m.getD i' []).getD j' 0 ≠ 0
    · rw [if_pos hcell] at hf
      obtain ⟨rfl, rfl⟩ := Prod.mk.injEq .. ▸ Option.some.inj hf
      exact ⟨hi', hj', hcell⟩
    · rw [if_neg hcell] at hf
      exact absurd hf (by simp)
  · rintro ⟨hi, hj, hcell⟩
    exact ⟨i, hi, j, hj, by rw [if_pos hcell]⟩

/-- The collected building tiles are pairwise distinct coordinates. -/
theorem nodup_buildingPoints (m : List (List ℤ)) :
    (buildingPoints m).Nodup := by
  unfold buildingPoints
  rw [List.nodup_flatMap]
  constructor
  · intro i _
    refine List.Nodup.filterMap ?_ (List.nodup_range _)
    intro j j' b hb hb'
    by_cases hc : (m.getD i []).getD j 0 ≠ 0
    · rw [if_pos hc] at hb
      by_cases hc' : (m.getD i []).getD j' 0 ≠ 0
      · rw [if_pos hc'] at hb'
        have e1 : (i, j) = b := Option.some.inj (Option.mem_def.mp hb)
        have e2 : (i, j') = b := Option.some.inj (Option.mem_def.mp hb')
        have := e1.trans e2.symm
        exact (Prod.mk.injEq .. ▸ this).2
      · rw [if_neg hc'] at hb'
        exact absurd (Option.mem_def.mp hb') (by simp)
    · rw [if_neg hc] at hb
      exact absurd (Option.mem_def.mp hb) (by simp)
  · refine (List.pairwise_lt_range _).imp ?_
    intro i i' hii' x hx hx'
    have hfst : ∀ (a : ℕ) (y : Pt),
        y ∈ (List.range (m.headD []).length).filterMap (fun j =>
          if (m.getD a []).getD j 0 ≠ 0 then some (a, j) else none) → y.1 = a := by
      intro a y hy
      obtain ⟨j, _, hf⟩ := List.mem_filterMap.mp hy
      by_cases hc : (m.getD a []).getD j 0 ≠ 0
      · rw [if_pos hc] at hf
        rw [← Option.some.inj hf]
      · rw [if_neg hc] at hf
        exact absurd hf (by simp)
    have h1 := hfst i x hx
    have h2 := hfst i' x hx'
    omega

/-- Membership in the association list returned by `make_graph`. -/
theorem mem_makeGraph_iff (m : List (List ℤ)) (p : Pt) (l : List Pt) :
    (p, l) ∈ makeGraph m ↔
      p ∈ buildingPoints m ∧ l = neighboursOf kValue (buildingPoints m) p := by
  simp only [makeGraph, List.mem_map]
  constructor
  · rintro ⟨x, hx, hxe⟩
    injection hxe with h1 h2
    subst h1
    exact ⟨hx, h2.symm⟩
  · rintro ⟨hp, rfl⟩
    exact ⟨p, hp, rfl⟩

/-- Every computed neighbour is one of the other building points. -/
theorem mem_neighboursOf {k : ℕ} {pts : List Pt} {p q : Pt}
    (h : q ∈ neighboursOf k pts p) : q ∈ pts ∧ q ≠ p := by
  unfold neighboursOf at h
  obtain ⟨pair, hpair, rfl⟩ := List.mem_map.mp h
  have h2 := List.mem_of_mem_take hpair
  rw [List.mem_insertionSort] at h2
  obtain ⟨q', hq', he⟩ := List.mem_map.mp h2
  obtain ⟨hq'1, hq'2⟩ := List.mem_filter.mp hq'
  subst he
  exact ⟨hq'1, of_decide_eq_true hq'2⟩

/-- The neighbour list always has exactly `min k (len distances)` entries. -/
theorem length_neighboursOf (k : ℕ) (pts : List Pt) (p : Pt) :
    (neighboursOf k pts p).length = min k (distancesOf pts p).length := by
  simp only [neighboursOf, List.length_map, List.length_take,
    List.length_insertionSort]
  omega

/-- With pairwise-distinct points, `p`'s `distances` list has one entry per
other point. -/
theorem length_distancesOf (pts : List Pt) (p : Pt)
    (hn : pts.Nodup) (hp : p ∈ pts) :
    (distancesOf pts p).length = pts.length - 1 := by
  simp only [distancesOf, List.length_map]
  have hfe : pts.filter (fun q => decide (q ≠ p)) = pts.erase p := by
    rw [hn.erase_eq_filter p]
    apply List.filter_congr
    intro a _
    by_cases hq : a = p <;> simp [hq, bne]
  rw [hfe, List.length_erase_of_mem hp]

/-- The neighbour list of a point contains no duplicates. -/
theorem nodup_neighboursOf (k : ℕ) {pts : List Pt} (p : Pt)
    (hn : pts.Nodup) : (neighboursOf k pts p).Nodup := by
  have h1 : List.Perm (((distancesOf pts p).insertionSort keyLE).map Prod.snd)
      ((distancesOf pts p).map Prod.snd) :=
    (List.perm_insertionSort keyLE _).map Prod.snd
  have h2 : (distancesOf pts p).map Prod.snd =
      pts.filter (fun q => decide (q ≠ p)) := by
    rw [distancesOf, List.map_map]
    exact List.map_id'' (fun _ => rfl) _
  have h3 : ((distancesOf pts p).map Prod.snd).Nodup := by
    rw [h2]; exact hn.filter _
  have h4 : (((distancesOf pts p).insertionSort keyLE).map Prod.snd).Nodup :=
    h1.symm.nodup h3
  unfold neighboursOf
  rw [List.map_take]
  exact List.Nodup.sublist (List.take_sublist _ _) h4

/-- C5: every key of the graph maps to a neighbour list without the key
itself (no self-loops) of length exactly `min(k, N-1)` for `N` the number
of buildings, and degenerate maps with at most one building yield empty
neighbour lists. -/
theorem C5_graph_invariants (m : List (List ℤ)) (p : Pt) (l : List Pt)
    (h : (p, l) ∈ makeGraph m) :
    p ∉ l ∧ l.length = min kValue ((buildingPoints m).length - 1) ∧
    ((buildingPoints m).length ≤ 1 → l = []) := by
  obtain ⟨hp, rfl⟩ := (mem_makeGraph_iff m p l).mp h
  have hlen : (neighboursOf kValue (buildingPoints m) p).length =
      min kValue ((buildingPoints m).length - 1) := by
    rw [length_neighboursOf,
      length_distancesOf _ _ (nodup_buildingPoints m) hp]
  refine ⟨fun hmem => absurd rfl (mem_neighboursOf hmem).2, hlen, fun hle => ?_⟩
  have h1 : min kValue ((buildingPoints m).length - 1) = 0 := by
    have : (buildingPoints m).length - 1 = 0 := by omega
    simp [this]
  exact List.eq_nil_of_length_eq_zero (hlen.trans h1)

/-- C5 witness: the invariants instantiated on the two-building map
`[[1,1]]` at key `(0,0)` with neighbour list `[(0,1)]`. -/
theorem C5_graph_invariants_witness :
    ((0,0), [(0,1)]) ∈ makeGraph [[1,1]] ∧
    ((0,0) ∉ [((0:ℕ),(1:ℕ))] ∧
     [((0:ℕ),(1:ℕ))].length = min kValue ((buildingPoints [[1,1]]).length - 1) ∧
     ((buildingPoints [[1,1]]).length ≤ 1 → [((0:ℕ),(1:ℕ))] = [])) :=
  ⟨by decide, C5_graph_invariants [[1,1]] (0,0) [(0,1)] (by decide)⟩

/-- C10: the key set of the graph is exactly the set of in-range non-zero
map cells, every coordinate in any neighbour list is itself a key, and no
neighbour list contains a coordinate twice. -/
theorem C10_keys_closure_nodup (m : List (List ℤ)) :
    (makeGraph m).map Prod.fst = buildingPoints m ∧
    (∀ i j : ℕ, (i, j) ∈ (makeGraph m).map Prod.fst ↔
      i < m.length ∧ j < (m.headD []).length ∧ (m.getD i []).getD j 0 ≠ 0) ∧
    (∀ p l, (p, l) ∈ makeGraph m → ∀ q ∈ l, q ∈ (makeGraph m).map Prod.fst) ∧
    (∀ p l, (p, l) ∈ makeGraph m → l.Nodup) := by
  have hkeys : (makeGraph m).map Prod.fst = buildingPoints m := by
    rw [makeGraph, List.map_map]
    exact List.map_id'' (fun _ => rfl) _
  refine ⟨hkeys, ?_, ?_, ?_⟩
  · intro i j
    rw [hkeys]
    exact mem_buildingPoints m i j
  · intro p l h q hq
    rw [hkeys]
    obtain ⟨hp, rfl⟩ := (mem_makeGraph_iff m p l).mp h
    exact (mem_neighboursOf hq).1
  · intro p l h
    obtain ⟨hp, rfl⟩ := (mem_makeGraph_iff m p l).mp h
    exact nodup_neighboursOf kValue p (nodup_buildingPoints m)

/-- Order on enumerated `(position, (distance², point))` entries used to
state stability, following the spec wording: ascending by stored squared
distance, ties between equal distances broken by the original enumeration
position of the points. -/
def tieLE (a b : ℕ × (ℤ × Pt)) : Prop :=
  a.2.1 < b.2.1 ∨ (a.2.1 = b.2.1 ∧ a.1 ≤ b.1)

/-- Key order `keyLE` lifted to enumerated entries (distances only). -/
def ekeyLE (a b : ℕ × (ℤ × Pt)) : Prop := a.2.1 ≤ b.2.1

instance : DecidableRel ekeyLE := fun a b => inferInstanceAs (Decidable (a.2.1 ≤ b.2.1))

instance : IsTotal (ℕ × (ℤ × Pt)) ekeyLE := ⟨fun a b => le_total a.2.1 b.2.1⟩

instance : IsTrans (ℕ × (ℤ × Pt)) ekeyLE := ⟨fun _ _ _ h1 h2 => le_trans h1 h2⟩

/-- Sorting the enumerated distance list by key and dropping the positions
gives exactly the key-sorted distance list. -/
theorem map_snd_insertionSort_enum (l : List (ℤ × Pt)) :
    (l.enum.insertionSort ekeyLE).map Prod.snd = l.insertionSort keyLE := by
  have h := List.map_insertionSort ekeyLE keyLE Prod.snd l.enum (fun a _ b _ => Iff.rfl)
  rwa [List.enum_map_snd] at h

/-- Enumerated lists never contain duplicate entries. -/
theorem nodup_enumList (l : List (ℤ × Pt)) : l.enum.Nodup :=
  List.Nodup.of_map Prod.fst (by rw [List.enum_map_fst]; exact List.nodup_range _)

/-- Stability of the modelled sort: sorting the enumerated distance list
by key alone yields a list that is ordered by `tieLE`, i.e. entries with
equal distances keep their original relative order. -/
theorem pairwise_tieLE_insertionSort (l : List (ℤ × Pt)) :
    (l.enum.insertionSort ekeyLE).Pairwise tieLE := by
  set s := l.enum.insertionSort ekeyLE with hs
  have hsorted : s.Pairwise ekeyLE := List.sorted_insertionSort ekeyLE l.enum
  have hperm : List.Perm s l.enum := List.perm_insertionSort ekeyLE l.enum
  have hnodup : s.Nodup := hperm.symm.nodup (nodup_enumList l)
  rw [List.pairwise_iff_get] at hsorted ⊢
  intro i j hij
  have hk : ekeyLE (s.get i) (s.get j) := hsorted i j hij
  rcases lt_or_eq_of_le hk with hlt | heq
  · exact Or.inl hlt
  · refine Or.inr ⟨heq, ?_⟩
    by_contra hcon
    push_neg at hcon
    have hae : s.get i ∈ l.enum := hperm.subset (List.get_mem ..)
    have hbe : s.get j ∈ l.enum := hperm.subset (List.get_mem ..)
    obtain ⟨hal, hav⟩ := List.mem_enum hae
    obtain ⟨hbl, hbv⟩ := List.mem_enum hbe
    have hbl' : (s.get j).1 < l.enum.length := by rw [List.enum_length]; exact hbl
    have hal' : (s.get i).1 < l.enum.length := by rw [List.enum_length]; exact hal
    have hpsub : List.Sublist ([(⟨(s.get j).1, hbl'⟩ : Fin l.enum.length),
        ⟨(s.get i).1, hal'⟩].map l.enum.get) l.enum :=
      List.map_get_sublist (List.pairwise_pair.mpr hcon)
    have hget_b : l.enum.get ⟨(s.get j).1, hbl'⟩ = s.get j := by
      rw [List.get_eq_getElem, List.getElem_enum]
      exact Prod.ext rfl hbv.symm
    have hget_a : l.enum.get ⟨(s.get i).1, hal'⟩ = s.get i := by
      rw [List.get_eq_getElem, List.getElem_enum]
      exact Prod.ext rfl hav.symm
    rw [List.map_cons, List.map_cons, List.map_nil, hget_b, hget_a] at hpsub
    have hba : ekeyLE (s.get j) (s.get i) := le_of_eq heq.symm
    have hsub2 : List.Sublist [s.get j, s.get i] s :=
      List.pair_sublist_insertionSort hba hpsub
    obtain ⟨is, his, hpw⟩ := List.sublist_eq_map_get hsub2
    rcases is with _ | ⟨x, _ | ⟨y, _ | ⟨z, t⟩⟩⟩
    · simp at his
    · simp at his
    · simp only [List.map_cons, List.map_nil] at his
      injection his with h1 hrest
      injection hrest with h2 hnil
      have hx : x = j := hnodup.get_inj_iff.mp h1.symm
      have hy : y = i := hnodup.get_inj_iff.mp h2.symm
      have hxy : x < y := List.pairwise_pair.mp hpw
      rw [hx, hy] at hxy
      exact absurd hxy (lt_asymm hij)
    · simp only [List.map_cons] at his
      injection his with h1 hrest
      injection hrest with h2 hnil
      exact absurd hnil (by simp)

/-- C4: for every building point `P`, the neighbour list that `make_graph`
assigns to `P` consists of the first `min(k, number of other points)`
entries of the list of all other points ordered ascending by squared
Euclidean distance to `P`, ties between equal distances broken by the
original enumeration order of the points (stable sort), returned in that
sorted order.  The ordered list is exhibited as a permutation `s` of the
enumerated `(distance², point)` pairs that is sorted under `tieLE`. -/
theorem C4_neighbours_stable_sort (m : List (List ℤ)) (p : Pt)
    (hp : p ∈ buildingPoints m) :
    ∃ s : List (ℕ × (ℤ × Pt)),
      List.Perm s (distancesOf (buildingPoints m) p).enum ∧
      s.Pairwise tieLE ∧
      (p, (s.take (min kValue (distancesOf (buildingPoints m) p).length)).map
          (fun e => e.2.2)) ∈ makeGraph m := by
  refine ⟨(distancesOf (buildingPoints m) p).enum.insertionSort ekeyLE,
    List.perm_insertionSort _ _, pairwise_tieLE_insertionSort _, ?_⟩
  rw [mem_makeGraph_iff]
  refine ⟨hp, ?_⟩
  rw [neighboursOf, ← map_snd_insertionSort_enum, ← List.map_take,
    List.map_map]
  rfl

/-- C4 witness: the stable-sort description instantiated on the
two-building map `[[1,1]]` at `P = (0,0)`. -/
theorem C4_neighbours_stable_sort_witness :
    ((0:ℕ), (0:ℕ)) ∈ buildingPoints [[1,1]] ∧
    ∃ s : List (ℕ × (ℤ × Pt)),
      List.Perm s (distancesOf (buildingPoints [[1,1]]) (0,0)).enum ∧
      s.Pairwise tieLE ∧
      ((0,0), (s.take (min kValue
          (distancesOf (buildingPoints [[1,1]]) (0,0)).length)).map
          (fun e => e.2.2)) ∈ makeGraph [[1,1]] :=
  ⟨by decide, C4_neighbours_stable_sort [[1,1]] (0,0) (by decide)⟩

end CreateGraph
